import Mathlib

/-!
Verification of the `send_to_all` instruction of the splitter program
(`programs/solana-pyusd-splitter/src/lib.rs`).

The program iterates over the caller-supplied `remaining_accounts`
(the recipient list); for each recipient it borrows and deserializes the
account data as a `TokenAccount` (failing with `InvalidTokenAccount`),
explicitly drops the borrow, and then performs a token-2022
`transfer_checked` CPI moving `amount` from the `from` account to the
recipient, asserting `ctx.accounts.mint.decimals`.

Account keys are modelled as naturals, on-chain state as per-key balance
and outstanding-data-borrow counters, and the external collaborators
(the anchor deserializer and the token-2022 transfer primitive) as a
function parameter and an explicit executable model respectively.
-/

namespace Splitter

/-- A decoded SPL token account (the balance record a recipient reference
must deserialize into): mint, owner and token quantity. -/
structure TokenAccount where
  mint : Nat
  owner : Nat
  amount : Nat
deriving DecidableEq, Repr

/-- An account passed to the instruction: its address and its raw data
bytes (the buffer the deserializer reads). -/
structure AccountInfo where
  key : Nat
  data : List Nat
deriving DecidableEq, Repr

/-- The mint account (`anchor_spl::token_interface::Mint`): address and
declared decimal precision. -/
structure Mint where
  key : Nat
  decimals : Nat
deriving DecidableEq, Repr

/-- The fixed accounts of the `SendTokens` context: the mutable `from`
token account, the signing authority, the mint and the token program. -/
structure SendTokens where
  fromAccount : AccountInfo
  authority : Nat
  mint : Mint
  tokenProgram : Nat
deriving DecidableEq, Repr

/-- On-chain state visible to the instruction: the token balance held by
each account key, and the number of outstanding data borrows
(`RefCell` guards) per account key. -/
@[ext]
structure Chain where
  bal : Nat → Nat
  borrows : Nat → Nat

/-- Failure reasons of the underlying `transfer_checked` primitive
(surfaced verbatim by the program). -/
inductive TransferErr where
  | accountBorrowFailed
  | mintDecimalsMismatch
  | insufficientFunds
  | overflow
deriving DecidableEq, Repr

/-- Result type of the instruction: the program's own
`ErrorCode::InvalidTokenAccount`, or an error propagated from the
transfer primitive. -/
inductive Err where
  | invalidTokenAccount
  | transfer (e : TransferErr)
deriving DecidableEq, Repr

/-- Observable events of one invocation, indexed by the position of the
recipient in the caller-supplied list. -/
inductive Event where
  | rejected (i : Nat) (key : Nat)
  | validated (i : Nat) (key : Nat)
  | transferAttempt (i : Nat) (fromKey toKey amount mintKey decimals : Nat)
deriving DecidableEq, Repr

/-- `recipient.try_borrow_data()`: take a shared borrow of the account's
data (in this program no account is ever mutably borrowed at this point,
so the borrow always succeeds). -/
def borrowData (c : Chain) (key : Nat) : Chain :=
  { c with borrows := fun k => if k = key then c.borrows k + 1 else c.borrows k }

/-- `drop(recipient_data)`: release the shared borrow taken by
`borrowData`. -/
def releaseData (c : Chain) (key : Nat) : Chain :=
  { c with borrows := fun k => if k = key then c.borrows k - 1 else c.borrows k }

/-- The validation step of one loop iteration (lib.rs lines 36-41):
borrow the recipient's raw data, attempt to deserialize it as a
`TokenAccount` (the decoded value is discarded by the source), and
explicitly drop the borrow.  On a failed deserialization the program
returns `ErrorCode::InvalidTokenAccount` (the borrow guard is also
dropped on that early return, but the whole invocation aborts). -/
def validateRecipient (deser : List Nat → Option TokenAccount)
    (r : AccountInfo) (c : Chain) : Except Err Chain :=
  let borrowed := borrowData c r.key
  match deser r.data with
  | none => .error .invalidTokenAccount
  | some _ => .ok (releaseData borrowed r.key)

/-- Model of the external token-2022 `transfer_checked` primitive invoked
by CPI: the runtime first requires that no data borrows are outstanding
on the accounts it serializes; the token program then rejects a decimals
argument different from the mint's declared decimals, an `amount`
exceeding the source balance, and a destination balance that would
overflow `u64`; otherwise it moves `amount` from `fromKey` to `toKey`. -/
def transferChecked (mint : Mint) (c : Chain)
    (fromKey toKey amount decimals : Nat) : Except TransferErr Chain :=
  if c.borrows fromKey ≠ 0 ∨ c.borrows toKey ≠ 0 then
    .error .accountBorrowFailed
  else if decimals ≠ mint.decimals then
    .error .mintDecimalsMismatch
  else if c.bal fromKey < amount then
    .error .insufficientFunds
  else
    let b1 : Nat → Nat := fun k => if k = fromKey then c.bal fromKey - amount else c.bal k
    if 2 ^ 64 ≤ b1 toKey + amount then
      .error .overflow
    else
      .ok { c with bal := fun k => if k = toKey then b1 toKey + amount else b1 k }

/-- The recipient loop of `send_to_all` (lib.rs lines 34-56), with the
per-iteration index made explicit so that the event trace can refer to
list positions.  Each iteration validates the recipient and then calls
`transfer_checked` with the shared `amount` and `decimals`; the first
error of either kind ends the loop.  Returns the trace of events together
with either the final state or the first error. -/
def sendToAllLoop (deser : List Nat → Option TokenAccount) (mint : Mint)
    (fromKey amount decimals : Nat) :
    Nat → List AccountInfo → Chain → List Event × Except Err Chain
  | _, [], c => ([], .ok c)
  | i, r :: rest, c =>
    match validateRecipient deser r c with
    | .error e => ([Event.rejected i r.key], .error e)
    | .ok c1 =>
      match transferChecked mint c1 fromKey r.key amount decimals with
      | .error te =>
        ([Event.validated i r.key,
          Event.transferAttempt i fromKey r.key amount mint.key decimals],
         .error (.transfer te))
      | .ok c2 =>
        let next := sendToAllLoop deser mint fromKey amount decimals (i + 1) rest c2
        (Event.validated i r.key ::
          Event.transferAttempt i fromKey r.key amount mint.key decimals :: next.1,
         next.2)

/-- `send_to_all`: run the recipient loop over `remaining_accounts`,
starting at index 0, passing the context's `from` key and the mint's own
`decimals` to every transfer. -/
def sendToAll (deser : List Nat → Option TokenAccount) (ctx : SendTokens)
    (amount : Nat) (recipients : List AccountInfo) (c : Chain) :
    List Event × Except Err Chain :=
  sendToAllLoop deser ctx.mint ctx.fromAccount.key amount ctx.mint.decimals 0 recipients c

/-- Host-level atomic execution: the runtime wraps the instruction in one
all-or-nothing transaction, so on any error every effect of the
invocation is discarded and the pre-state is kept. -/
def hostExecute (res : Except Err Chain) (c : Chain) : Except Err Unit × Chain :=
  match res with
  | .ok c' => (.ok (), c')
  | .error e => (.error e, c)

/-- One complete invocation as observed from outside the host: the result
of `send_to_all` together with the committed final state. -/
def invoke (deser : List Nat → Option TokenAccount) (ctx : SendTokens)
    (amount : Nat) (recipients : List AccountInfo) (c : Chain) :
    Except Err Unit × Chain :=
  hostExecute (sendToAll deser ctx amount recipients c).2 c

/-- A simple concrete deserializer for the scenario instances: a
three-byte buffer decodes as a token account, anything else is
malformed. -/
def deser0 : List Nat → Option TokenAccount
  | [m, o, a] => some ⟨m, o, a⟩
  | _ => none

/-- Concrete context for the scenario instances: source account 1,
authority 2, mint 3 with 6 decimals, token program 4. -/
def ctx0 : SendTokens := ⟨⟨1, []⟩, 2, ⟨3, 6⟩, 4⟩

/-- Concrete initial chain state: the source account (key 1) holds 1000
units, no data borrows outstanding. -/
def chain0 : Chain := ⟨fun k => if k = 1 then 1000 else 0, fun _ => 0⟩

/-- A valid recipient account with the given key. -/
def rcpt (k : Nat) : AccountInfo := ⟨k, [3, k, 0]⟩

/-- A malformed recipient account: its data fails to deserialize. -/
def badRcpt : AccountInfo := ⟨99, [7]⟩

/-! ### Basic lemmas about the step functions -/

theorem releaseData_borrowData (c : Chain) (key : Nat) :
    releaseData (borrowData c key) key = c := by
  cases c with
  | mk bal borrows =>
    simp only [releaseData, borrowData]
    congr 1
    funext k
    by_cases h : k = key <;> simp [h]

theorem validateRecipient_ok_of_some {deser : List Nat → Option TokenAccount}
    {r : AccountInfo} {ta : TokenAccount} (c : Chain) (h : deser r.data = some ta) :
    validateRecipient deser r c = .ok c := by
  simp [validateRecipient, h, releaseData_borrowData]

theorem validateRecipient_err_of_none {deser : List Nat → Option TokenAccount}
    {r : AccountInfo} (c : Chain) (h : deser r.data = none) :
    validateRecipient deser r c = .error .invalidTokenAccount := by
  simp [validateRecipient, h]

theorem validateRecipient_ok_inv {deser : List Nat → Option TokenAccount}
    {r : AccountInfo} {c c' : Chain}
    (h : validateRecipient deser r c = .ok c') :
    c' = c ∧ ∃ ta, deser r.data = some ta := by
  cases hd : deser r.data with
  | none => simp [validateRecipient, hd] at h
  | some ta =>
    rw [validateRecipient_ok_of_some c hd] at h
    cases h
    exact ⟨rfl, ta, rfl⟩

theorem validateRecipient_ok_inv_eq {deser : List Nat → Option TokenAccount}
    {r : AccountInfo} {c c' : Chain}
    (h : validateRecipient deser r c = .ok c') : c' = c :=
  (validateRecipient_ok_inv h).1

theorem validateRecipient_err_inv {deser : List Nat → Option TokenAccount}
    {r : AccountInfo} {c : Chain} {e : Err}
    (h : validateRecipient deser r c = .error e) :
    e = .invalidTokenAccount ∧ deser r.data = none := by
  cases hd : deser r.data with
  | none =>
    rw [validateRecipient_err_of_none c hd] at h
    cases h
    exact ⟨rfl, rfl⟩
  | some ta => rw [validateRecipient_ok_of_some c hd] at h; cases h

theorem transferChecked_ok_inv {mint : Mint} {c c₂ : Chain} {f t a d : Nat}
    (hne : t ≠ f)
    (h : transferChecked mint c f t a d = .ok c₂) :
    c.borrows f = 0 ∧ c.borrows t = 0 ∧ d = mint.decimals ∧ a ≤ c.bal f ∧
    c.bal t + a < 2 ^ 64 ∧
    c₂.bal f = c.bal f - a ∧ c₂.bal t = c.bal t + a ∧
    (∀ k, k ≠ f → k ≠ t → c₂.bal k = c.bal k) ∧ c₂.borrows = c.borrows := by
  simp only [transferChecked, if_neg hne] at h
  split_ifs at h with h1 h2 h3 h4
  cases h
  push_neg at h1
  refine ⟨h1.1, h1.2, not_ne_iff.mp h2, le_of_not_lt h3, not_le.mp h4, ?_, ?_, ?_, rfl⟩
  · simp [if_neg (Ne.symm hne)]
  · simp
  · intro k hkf hkt
    simp [if_neg hkt, if_neg hkf]

theorem transferChecked_ok_of {mint : Mint} {c : Chain} {f t a : Nat}
    (hne : t ≠ f) (hb1 : c.borrows f = 0) (hb2 : c.borrows t = 0)
    (hf : a ≤ c.bal f) (hov : c.bal t + a < 2 ^ 64) :
    ∃ c₂, transferChecked mint c f t a mint.decimals = .ok c₂ := by
  have h1 : ¬(c.borrows f ≠ 0 ∨ c.borrows t ≠ 0) := by simp [hb1, hb2]
  have h2 : ¬(mint.decimals ≠ mint.decimals) := by simp
  have h3 : ¬(c.bal f < a) := not_lt.mpr hf
  have h4 : ¬(2 ^ 64 ≤ (if t = f then c.bal f - a else c.bal t) + a) := by
    rw [if_neg hne]; omega
  simp only [transferChecked]
  rw [if_neg h1, if_neg h2, if_neg h3, if_neg h4]
  exact ⟨_, rfl⟩

/-! ### Characterization of successful runs of the recipient loop -/

/-- A successful run of the loop implies: every reference decoded, the
source held enough funds, no destination overflowed, and the final
balances are the initial ones shifted by `amount` times the occurrence
counts, with all data borrows as before. -/
theorem loop_ok_sound (deser : List Nat → Option TokenAccount) (mint : Mint)
    (fromKey amount d : Nat) (l : List AccountInfo) :
    ∀ (i : Nat) (c c' : Chain),
      (sendToAllLoop deser mint fromKey amount d i l c).2 = .ok c' →
      (∀ r ∈ l, r.key ≠ fromKey) →
      (∀ r ∈ l, deser r.data ≠ none) ∧
      amount * l.length ≤ c.bal fromKey ∧
      (∀ r ∈ l, c.bal r.key + amount * l.countP (fun x => x.key == r.key) < 2 ^ 64) ∧
      c'.bal fromKey = c.bal fromKey - amount * l.length ∧
      (∀ k, k ≠ fromKey → c'.bal k = c.bal k + amount * l.countP (fun x => x.key == k)) ∧
      (∀ k, c'.borrows k = c.borrows k) := by
  induction l with
  | nil =>
    intro i c c' h _
    simp only [sendToAllLoop] at h
    rw [Except.ok.injEq] at h
    subst h
    simp
  | cons r rest ih =>
    intro i c c' h hfrom
    have hrkey : r.key ≠ fromKey := hfrom r (List.mem_cons_self r rest)
    have hfrom' : ∀ x ∈ rest, x.key ≠ fromKey :=
      fun x hx => hfrom x (List.mem_cons_of_mem r hx)
    simp only [sendToAllLoop] at h
    cases hv : validateRecipient deser r c with
    | error e => simp [hv] at h
    | ok c1 =>
      simp only [hv] at h
      obtain ⟨hc1, ta, hta⟩ := validateRecipient_ok_inv hv
      subst c1
      cases ht : transferChecked mint c fromKey r.key amount d with
      | error te => simp [ht] at h
      | ok c2 =>
        simp only [ht] at h
        obtain ⟨hb1, hb2, hdec, hf1, hov1, hbf, hbt, hbother, hborr⟩ :=
          transferChecked_ok_inv hrkey ht
        obtain ⟨ihdeser, ihfunds, ihover, ihbf, ihbal, ihborr⟩ :=
          ih (i + 1) c2 c' h hfrom'
        rw [hbf] at ihfunds ihbf
        refine ⟨?_, ?_, ?_, ?_, ?_, ?_⟩
        · intro x hx
          rcases List.mem_cons.mp hx with rfl | hx
          · simp [hta]
          · exact ihdeser x hx
        · simp only [List.length_cons, Nat.mul_succ]
          omega
        · intro x hx
          rw [List.countP_cons]
          rcases List.mem_cons.mp hx with rfl | hx
          · simp only [beq_self_eq_true, if_pos, Nat.mul_succ]
            rcases Nat.eq_zero_or_pos (rest.countP (fun y => y.key == x.key)) with hz | hp
            · rw [hz]; omega
            · obtain ⟨x', hx'mem, hx'key⟩ := List.countP_pos_iff.mp hp
              have hkeq : x'.key = x.key := by simpa using hx'key
              have := ihover x' hx'mem
              simp only [hkeq] at this
              rw [hbt] at this
              omega
          · by_cases hk : x.key = r.key
            · have hhead : (r.key == x.key) = true := by simp [hk]
              rw [hhead, if_pos rfl, Nat.mul_succ]
              have := ihover x hx
              rw [hk] at this ⊢
              rw [hbt] at this
              omega
            · have hhead : (r.key == x.key) = false := by simp [Ne.symm hk]
              rw [hhead]
              simp only [Bool.false_eq_true, if_neg, Nat.add_zero]
              have := ihover x hx
              rw [hbother x.key (hfrom' x hx) hk] at this
              exact this
        · simp only [List.length_cons, Nat.mul_succ]
          omega
        · intro k hkfrom
          rw [List.countP_cons]
          have := ihbal k hkfrom
          by_cases hk : k = r.key
          · have hhead : (r.key == k) = true := by simp [hk]
            rw [hhead, if_pos rfl, Nat.mul_succ]
            rw [hk] at this ⊢
            rw [hbt] at this
            omega
          · have hhead : (r.key == k) = false := by simp [Ne.symm hk]
            rw [hhead]
            simp only [Bool.false_eq_true, if_neg, Nat.add_zero]
            rw [hbother k hkfrom hk] at this
            exact this
        · intro k
          rw [ihborr k, hborr]

/-- Conversely: when every reference decodes, the source holds enough
funds, no destination overflows, the source account is not among the
recipients, and no data borrow is outstanding, the loop succeeds. -/
theorem loop_ok_complete (deser : List Nat → Option TokenAccount) (mint : Mint)
    (fromKey amount : Nat) (l : List AccountInfo) :
    ∀ (i : Nat) (c : Chain),
      (∀ r ∈ l, r.key ≠ fromKey) →
      (∀ k, c.borrows k = 0) →
      (∀ r ∈ l, deser r.data ≠ none) →
      amount * l.length ≤ c.bal fromKey →
      (∀ r ∈ l, c.bal r.key + amount * l.countP (fun x => x.key == r.key) < 2 ^ 64) →
      ∃ c', (sendToAllLoop deser mint fromKey amount mint.decimals i l c).2 = .ok c' := by
  induction l with
  | nil => intro i c _ _ _ _ _; exact ⟨c, rfl⟩
  | cons r rest ih =>
    intro i c hfrom hborrow hdeser hfunds hover
    have hrkey : r.key ≠ fromKey := hfrom r (List.mem_cons_self r rest)
    have hfrom' : ∀ x ∈ rest, x.key ≠ fromKey :=
      fun x hx => hfrom x (List.mem_cons_of_mem r hx)
    obtain ⟨ta, hta⟩ : ∃ ta, deser r.data = some ta := by
      cases hd : deser r.data with
      | none => exact absurd hd (hdeser r (List.mem_cons_self r rest))
      | some ta => exact ⟨ta, rfl⟩
    have hf1 : amount ≤ c.bal fromKey := by
      simp only [List.length_cons, Nat.mul_succ] at hfunds
      omega
    have hov1 : c.bal r.key + amount < 2 ^ 64 := by
      have := hover r (List.mem_cons_self r rest)
      rw [List.countP_cons] at this
      simp only [beq_self_eq_true, if_pos, Nat.mul_succ] at this
      omega
    obtain ⟨c2, hc2⟩ :=
      @transferChecked_ok_of mint c fromKey r.key amount hrkey (hborrow fromKey)
        (hborrow r.key) hf1 hov1
    obtain ⟨_, _, _, _, _, hbf, hbt, hbother, hborr⟩ := transferChecked_ok_inv hrkey hc2
    have hborrow' : ∀ k, c2.borrows k = 0 := by
      intro k; rw [hborr]; exact hborrow k
    have hdeser' : ∀ x ∈ rest, deser x.data ≠ none :=
      fun x hx => hdeser x (List.mem_cons_of_mem r hx)
    have hfunds' : amount * rest.length ≤ c2.bal fromKey := by
      rw [hbf]
      simp only [List.length_cons, Nat.mul_succ] at hfunds
      omega
    have hover' : ∀ x ∈ rest,
        c2.bal x.key + amount * rest.countP (fun y => y.key == x.key) < 2 ^ 64 := by
      intro x hx
      have := hover x (List.mem_cons_of_mem r hx)
      rw [List.countP_cons] at this
      by_cases hk : x.key = r.key
      · have hhead : (r.key == x.key) = true := by simp [hk]
        rw [hhead, if_pos rfl, Nat.mul_succ] at this
        rw [hk] at this ⊢
        rw [hbt]
        omega
      · have hhead : (r.key == x.key) = false := by simp [Ne.symm hk]
        rw [hhead] at this
        simp only [Bool.false_eq_true, if_neg, Nat.add_zero] at this
        rw [hbother x.key (hfrom' x hx) hk]
        exact this
    obtain ⟨c', hc'⟩ := ih (i + 1) c2 hfrom' hborrow' hdeser' hfunds' hover'
    refine ⟨c', ?_⟩
    simp only [sendToAllLoop, validateRecipient_ok_of_some c hta, hc2]
    exact hc'

/-! ### Lemmas about the error paths and the event trace -/

/-- A successful run implies every recipient reference decoded. -/
theorem loop_ok_deser (deser : List Nat → Option TokenAccount) (mint : Mint)
    (fromKey amount d : Nat) (l : List AccountInfo) :
    ∀ (i : Nat) (c c' : Chain),
      (sendToAllLoop deser mint fromKey amount d i l c).2 = .ok c' →
      ∀ r ∈ l, deser r.data ≠ none := by
  induction l with
  | nil => intro i c c' _ r hr; exact absurd hr (List.not_mem_nil r)
  | cons r rest ih =>
    intro i c c' h x hx
    simp only [sendToAllLoop] at h
    cases hv : validateRecipient deser r c with
    | error e => simp [hv] at h
    | ok c1 =>
      simp only [hv] at h
      obtain ⟨hc1, ta, hta⟩ := validateRecipient_ok_inv hv
      cases ht : transferChecked mint c1 fromKey r.key amount d with
      | error te => simp [ht] at h
      | ok c2 =>
        simp only [ht] at h
        rcases List.mem_cons.mp hx with rfl | hx
        · simp [hta]
        · exact ih (i + 1) c2 c' h x hx

/-- A list containing a reference that fails to decode can never run to
success: the loop returns some error. -/
theorem loop_err_of_bad_deser (deser : List Nat → Option TokenAccount) (mint : Mint)
    (fromKey amount d : Nat) (l : List AccountInfo) :
    ∀ (i : Nat) (c : Chain), (∃ r ∈ l, deser r.data = none) →
      ∃ e, (sendToAllLoop deser mint fromKey amount d i l c).2 = .error e := by
  induction l with
  | nil => rintro i c ⟨r, hr, _⟩; exact absurd hr (List.not_mem_nil r)
  | cons r rest ih =>
    rintro i c ⟨x, hx, hbad⟩
    cases hv : validateRecipient deser r c with
    | error e => exact ⟨e, by simp [sendToAllLoop, hv]⟩
    | ok c1 =>
      obtain ⟨hc1, ta, hta⟩ := validateRecipient_ok_inv hv
      have hxrest : x ∈ rest := by
        rcases List.mem_cons.mp hx with rfl | hx'
        · rw [hta] at hbad; cases hbad
        · exact hx'
      cases ht : transferChecked mint c1 fromKey r.key amount d with
      | error te => exact ⟨.transfer te, by simp [sendToAllLoop, hv, ht]⟩
      | ok c2 =>
        obtain ⟨e, he⟩ := ih (i + 1) c2 ⟨x, hxrest, hbad⟩
        exact ⟨e, by simp [sendToAllLoop, hv, ht, he]⟩

/-- Any transfer attempt recorded in the trace belongs to a list position
at or after the start index, every position up to it decoded
successfully, and a validation event for the same recipient is also in
the trace. -/
theorem loop_attempt_mem (deser : List Nat → Option TokenAccount) (mint : Mint)
    (fromKey amount d : Nat) (l : List AccountInfo) :
    ∀ (i : Nat) (c : Chain) {j f k a m dd : Nat},
      Event.transferAttempt j f k a m dd ∈ (sendToAllLoop deser mint fromKey amount d i l c).1 →
      i ≤ j ∧
      (∀ q, q ≤ j - i → ∀ r, l[q]? = some r → deser r.data ≠ none) ∧
      Event.validated j k ∈ (sendToAllLoop deser mint fromKey amount d i l c).1 := by
  induction l with
  | nil => intro i c j f k a m dd hmem; simp [sendToAllLoop] at hmem
  | cons r0 rest ih =>
    intro i c j f k a m dd hmem
    cases hv : validateRecipient deser r0 c with
    | error e => simp [sendToAllLoop, hv] at hmem
    | ok c1 =>
      obtain ⟨hc1, ta, hta⟩ := validateRecipient_ok_inv hv
      cases ht : transferChecked mint c1 fromKey r0.key amount d with
      | error te =>
        simp only [sendToAllLoop, hv, ht] at hmem ⊢
        simp only [List.mem_cons, List.not_mem_nil, or_false] at hmem
        rcases hmem with h1 | h2
        · cases h1
        · rw [Event.transferAttempt.injEq] at h2
          obtain ⟨rfl, rfl, rfl, rfl, rfl, rfl⟩ := h2
          refine ⟨le_refl _, ?_, ?_⟩
          · intro q hq r' hr'
            have hq0 : q = 0 := by omega
            subst hq0
            simp only [List.getElem?_cons_zero, Option.some.injEq] at hr'
            subst hr'
            simp [hta]
          · simp
      | ok c2 =>
        simp only [sendToAllLoop, hv, ht] at hmem ⊢
        rw [List.mem_cons, List.mem_cons] at hmem
        rcases hmem with h1 | h2 | htl
        · cases h1
        · rw [Event.transferAttempt.injEq] at h2
          obtain ⟨rfl, rfl, rfl, rfl, rfl, rfl⟩ := h2
          refine ⟨le_refl _, ?_, ?_⟩
          · intro q hq r' hr'
            have hq0 : q = 0 := by omega
            subst hq0
            simp only [List.getElem?_cons_zero, Option.some.injEq] at hr'
            subst hr'
            simp [hta]
          · simp
        · obtain ⟨hij, hq, hval⟩ := ih (i + 1) c2 htl
          refine ⟨by omega, ?_, ?_⟩
          · intro q hq' r' hr'
            cases q with
            | zero =>
              simp only [List.getElem?_cons_zero, Option.some.injEq] at hr'
              subst hr'
              simp [hta]
            | succ q' =>
              exact hq q' (by omega) r' (by simpa using hr')
          · exact List.mem_cons.mpr (Or.inr (List.mem_cons.mpr (Or.inr hval)))

/-- A successful run records a transfer attempt for every position of the
recipient list, each with that recipient's key. -/
theorem loop_ok_attempts (deser : List Nat → Option TokenAccount) (mint : Mint)
    (fromKey amount d : Nat) (l : List AccountInfo) :
    ∀ (i : Nat) (c c' : Chain),
      (sendToAllLoop deser mint fromKey amount d i l c).2 = .ok c' →
      ∀ j r, l[j]? = some r →
        Event.transferAttempt (i + j) fromKey r.key amount mint.key d ∈
          (sendToAllLoop deser mint fromKey amount d i l c).1 := by
  induction l with
  | nil => intro i c c' _ j r hj; simp at hj
  | cons r0 rest ih =>
    intro i c c' h j r hj
    simp only [sendToAllLoop] at h ⊢
    cases hv : validateRecipient deser r0 c with
    | error e => simp [hv] at h
    | ok c1 =>
      simp only [hv] at h ⊢
      cases ht : transferChecked mint c1 fromKey r0.key amount d with
      | error te => simp [ht] at h
      | ok c2 =>
        simp only [ht] at h ⊢
        cases j with
        | zero =>
          simp only [List.getElem?_cons_zero, Option.some.injEq] at hj
          subst hj
          simp
        | succ j' =>
          have hmem := ih (i + 1) c2 c' h j' r (by simpa using hj)
          have heq : i + (j' + 1) = (i + 1) + j' := by omega
          rw [heq]
          exact List.mem_cons.mpr (Or.inr (List.mem_cons.mpr (Or.inr hmem)))

/-- Every transfer attempt in the trace carries the loop's own
source key, amount, mint key and decimals. -/
theorem loop_attempt_args (deser : List Nat → Option TokenAccount) (mint : Mint)
    (fromKey amount d : Nat) (l : List AccountInfo) :
    ∀ (i : Nat) (c : Chain) {j f k a m dd : Nat},
      Event.transferAttempt j f k a m dd ∈ (sendToAllLoop deser mint fromKey amount d i l c).1 →
      f = fromKey ∧ a = amount ∧ m = mint.key ∧ dd = d := by
  induction l with
  | nil => intro i c j f k a m dd hmem; simp [sendToAllLoop] at hmem
  | cons r0 rest ih =>
    intro i c j f k a m dd hmem
    cases hv : validateRecipient deser r0 c with
    | error e => simp [sendToAllLoop, hv] at hmem
    | ok c1 =>
      cases ht : transferChecked mint c1 fromKey r0.key amount d with
      | error te =>
        simp only [sendToAllLoop, hv, ht] at hmem
        simp only [List.mem_cons, List.not_mem_nil, or_false] at hmem
        rcases hmem with h1 | h2
        · cases h1
        · rw [Event.transferAttempt.injEq] at h2
          obtain ⟨rfl, rfl, rfl, rfl, rfl, rfl⟩ := h2
          exact ⟨rfl, rfl, rfl, rfl⟩
      | ok c2 =>
        simp only [sendToAllLoop, hv, ht] at hmem
        rw [List.mem_cons, List.mem_cons] at hmem
        rcases hmem with h1 | h2 | htl
        · cases h1
        · rw [Event.transferAttempt.injEq] at h2
          obtain ⟨rfl, rfl, rfl, rfl, rfl, rfl⟩ := h2
          exact ⟨rfl, rfl, rfl, rfl⟩
        · exact ih (i + 1) c2 htl

/-- Any failing run decomposes as: a fully successful prefix, then a
first failing step, which is either a reference that fails to decode
(giving `InvalidTokenAccount`) or a failing transfer whose reason is
propagated verbatim. -/
theorem loop_err_decompose (deser : List Nat → Option TokenAccount) (mint : Mint)
    (fromKey amount d : Nat) (l : List AccountInfo) :
    ∀ (i : Nat) (c : Chain) {e : Err},
      (sendToAllLoop deser mint fromKey amount d i l c).2 = .error e →
      ∃ j r c₁, l[j]? = some r ∧
        (sendToAllLoop deser mint fromKey amount d i (l.take j) c).2 = .ok c₁ ∧
        ((e = .invalidTokenAccount ∧ deser r.data = none) ∨
         (∃ te, e = .transfer te ∧ (∃ ta, deser r.data = some ta) ∧
            transferChecked mint c₁ fromKey r.key amount d = .error te)) := by
  induction l with
  | nil => intro i c e h; simp [sendToAllLoop] at h
  | cons r0 rest ih =>
    intro i c e h
    cases hv : validateRecipient deser r0 c with
    | error e0 =>
      simp only [sendToAllLoop, hv, Except.error.injEq] at h
      subst h
      obtain ⟨he0, hnone⟩ := validateRecipient_err_inv hv
      exact ⟨0, r0, c, by simp, by simp [sendToAllLoop], Or.inl ⟨he0, hnone⟩⟩
    | ok c1 =>
      obtain ⟨hc1, ta, hta⟩ := validateRecipient_ok_inv hv
      subst c1
      cases ht : transferChecked mint c fromKey r0.key amount d with
      | error te =>
        simp only [sendToAllLoop, hv, ht, Except.error.injEq] at h
        subst h
        exact ⟨0, r0, c, by simp, by simp [sendToAllLoop], Or.inr ⟨te, rfl, ⟨ta, hta⟩, ht⟩⟩
      | ok c2 =>
        simp only [sendToAllLoop, hv, ht] at h
        obtain ⟨j, r, c₁, hj, hpre, hdisj⟩ := ih (i + 1) c2 h
        refine ⟨j + 1, r, c₁, by simpa using hj, ?_, hdisj⟩
        simp only [List.take_succ_cons, sendToAllLoop, hv, ht]
        exact hpre

/-! ### Claim theorems -/

/-- C1: for a recipient list in which every reference decodes as a token
account and every checked transfer succeeds (the source account is not
among the recipients, no borrow is outstanding, the source holds at
least `amount * N`, and no destination balance overflows `u64`),
`send_to_all` returns success, the source balance decreases by exactly
`amount * N`, and each other key's balance increases by `amount` for
every occurrence of that key in the list. -/
theorem sendToAll_conservation (deser : List Nat → Option TokenAccount)
    (ctx : SendTokens) (amount : Nat) (recipients : List AccountInfo) (c : Chain)
    (hfrom : ∀ r ∈ recipients, r.key ≠ ctx.fromAccount.key)
    (hborrow : ∀ k, c.borrows k = 0)
    (hdeser : ∀ r ∈ recipients, deser r.data ≠ none)
    (hfunds : amount * recipients.length ≤ c.bal ctx.fromAccount.key)
    (hover : ∀ r ∈ recipients,
      c.bal r.key + amount * recipients.countP (fun x => x.key == r.key) < 2 ^ 64) :
    ∃ c', (sendToAll deser ctx amount recipients c).2 = .ok c' ∧
      c'.bal ctx.fromAccount.key = c.bal ctx.fromAccount.key - amount * recipients.length ∧
      ∀ k, k ≠ ctx.fromAccount.key →
        c'.bal k = c.bal k + amount * recipients.countP (fun r => r.key == k) := by
  obtain ⟨c', hc'⟩ := loop_ok_complete deser ctx.mint ctx.fromAccount.key amount recipients
    0 c hfrom hborrow hdeser hfunds hover
  obtain ⟨_, _, _, hbf, hbal, _⟩ := loop_ok_sound deser ctx.mint ctx.fromAccount.key amount
    ctx.mint.decimals recipients 0 c c' hc' hfrom
  exact ⟨c', hc', hbf, hbal⟩

/-- Witness for C1: source holds 1000, amount 100, three valid distinct
recipients; the run succeeds, the source ends at 700, each recipient
gains 100. -/
theorem sendToAll_conservation_witness :
    ∃ c', (sendToAll deser0 ctx0 100 [rcpt 10, rcpt 11, rcpt 12] chain0).2 = .ok c' ∧
      c'.bal ctx0.fromAccount.key =
        chain0.bal ctx0.fromAccount.key - 100 * [rcpt 10, rcpt 11, rcpt 12].length ∧
      ∀ k, k ≠ ctx0.fromAccount.key →
        c'.bal k = chain0.bal k +
          100 * [rcpt 10, rcpt 11, rcpt 12].countP (fun r => r.key == k) :=
  sendToAll_conservation deser0 ctx0 100 [rcpt 10, rcpt 11, rcpt 12] chain0
    (by decide) (fun _ => rfl) (by decide) (by decide) (by decide)

/-- C2: if any reference in the list fails to decode, the invocation
fails and the host-committed post-state is exactly the initial state:
the source balance and every recipient balance are unchanged, even when
valid recipients precede the malformed one. -/
theorem invoke_unchanged_on_invalid (deser : List Nat → Option TokenAccount)
    (ctx : SendTokens) (amount : Nat) (recipients : List AccountInfo) (c : Chain)
    (hbad : ∃ r ∈ recipients, deser r.data = none) :
    ∃ e, invoke deser ctx amount recipients c = (.error e, c) := by
  obtain ⟨e, he⟩ := loop_err_of_bad_deser deser ctx.mint ctx.fromAccount.key amount
    ctx.mint.decimals recipients 0 c hbad
  exact ⟨e, by simp [invoke, hostExecute, sendToAll, he]⟩

/-- Witness for C2: recipients `[valid, malformed, valid]`; the
invocation errors and the committed state is the initial one. -/
theorem invoke_unchanged_on_invalid_witness :
    ∃ e, invoke deser0 ctx0 100 [rcpt 10, badRcpt, rcpt 11] chain0 = (.error e, chain0) :=
  invoke_unchanged_on_invalid deser0 ctx0 100 [rcpt 10, badRcpt, rcpt 11] chain0 (by decide)

/-- C10: invoking `send_to_all` on an empty recipient list returns
success for every amount, context and state, performs no transfer (empty
trace), and the committed state is unchanged. -/
theorem sendToAll_empty (deser : List Nat → Option TokenAccount)
    (ctx : SendTokens) (amount : Nat) (c : Chain) :
    sendToAll deser ctx amount [] c = ([], .ok c) ∧
    invoke deser ctx amount [] c = (.ok (), c) :=
  ⟨rfl, rfl⟩

/-- C3: no transfer is ever attempted for a recipient that was not first
validated (every transfer-attempt event is preceded in the trace by a
validation event with the same key), and if the reference at position
`j` fails to decode, every transfer attempt in the trace belongs to a
strictly earlier position and the batch aborts with an error. -/
theorem no_transfer_without_validation (deser : List Nat → Option TokenAccount)
    (ctx : SendTokens) (amount : Nat) (recipients : List AccountInfo) (c : Chain)
    (j : Nat) (rb : AccountInfo)
    (hj : recipients[j]? = some rb) (hbad : deser rb.data = none) :
    (∀ i f k a m dd,
      Event.transferAttempt i f k a m dd ∈ (sendToAll deser ctx amount recipients c).1 →
      i < j ∧ Event.validated i k ∈ (sendToAll deser ctx amount recipients c).1) ∧
    ∃ e, (sendToAll deser ctx amount recipients c).2 = .error e := by
  constructor
  · intro i f k a m dd hmem
    obtain ⟨-, hq, hval⟩ := loop_attempt_mem deser ctx.mint ctx.fromAccount.key amount
      ctx.mint.decimals recipients 0 c hmem
    refine ⟨?_, hval⟩
    by_contra hlt
    push_neg at hlt
    exact hq j (by omega) rb hj hbad
  · obtain ⟨e, he⟩ := loop_err_of_bad_deser deser ctx.mint ctx.fromAccount.key amount
      ctx.mint.decimals recipients 0 c ⟨rb, List.getElem?_mem hj, hbad⟩
    exact ⟨e, he⟩

/-- Witness for C3: recipients `[valid, malformed, valid]`, malformed at
position 1. -/
theorem no_transfer_without_validation_witness :
    (∀ i f k a m dd,
      Event.transferAttempt i f k a m dd ∈
        (sendToAll deser0 ctx0 100 [rcpt 10, badRcpt, rcpt 11] chain0).1 →
      i < 1 ∧ Event.validated i k ∈
        (sendToAll deser0 ctx0 100 [rcpt 10, badRcpt, rcpt 11] chain0).1) ∧
    ∃ e, (sendToAll deser0 ctx0 100 [rcpt 10, badRcpt, rcpt 11] chain0).2 = .error e :=
  no_transfer_without_validation deser0 ctx0 100 [rcpt 10, badRcpt, rcpt 11] chain0 1 badRcpt
    (by decide) (by decide)

/-- C4: a failing invocation decomposes into a fully successful prefix
followed by the single step that produced the returned error: either the
reference at that step failed to decode and the result is exactly
`InvalidTokenAccount`, or the reference decoded and the transfer
primitive failed, in which case its reason is propagated verbatim.
There is no skip-and-continue path and no retry. -/
theorem sendToAll_error_taxonomy (deser : List Nat → Option TokenAccount)
    (ctx : SendTokens) (amount : Nat) (recipients : List AccountInfo) (c : Chain)
    (e : Err) (herr : (sendToAll deser ctx amount recipients c).2 = .error e) :
    ∃ j r c₁, recipients[j]? = some r ∧
      (sendToAllLoop deser ctx.mint ctx.fromAccount.key amount ctx.mint.decimals 0
        (recipients.take j) c).2 = .ok c₁ ∧
      ((e = .invalidTokenAccount ∧ deser r.data = none) ∨
       (∃ te, e = .transfer te ∧ (∃ ta, deser r.data = some ta) ∧
          transferChecked ctx.mint c₁ ctx.fromAccount.key r.key amount
            ctx.mint.decimals = .error te)) :=
  loop_err_decompose deser ctx.mint ctx.fromAccount.key amount ctx.mint.decimals recipients
    0 c herr

/-- Witness for C4: a run that ends in `InvalidTokenAccount` after one
valid recipient. -/
theorem sendToAll_error_taxonomy_witness :
    (sendToAll deser0 ctx0 100 [rcpt 10, badRcpt] chain0).2 = .error .invalidTokenAccount ∧
    ∃ j r c₁, [rcpt 10, badRcpt][j]? = some r ∧
      (sendToAllLoop deser0 ctx0.mint ctx0.fromAccount.key 100 ctx0.mint.decimals 0
        ([rcpt 10, badRcpt].take j) chain0).2 = .ok c₁ ∧
      ((Err.invalidTokenAccount = .invalidTokenAccount ∧ deser0 r.data = none) ∨
       (∃ te, Err.invalidTokenAccount = .transfer te ∧ (∃ ta, deser0 r.data = some ta) ∧
          transferChecked ctx0.mint c₁ ctx0.fromAccount.key r.key 100
            ctx0.mint.decimals = .error te)) :=
  ⟨rfl, sendToAll_error_taxonomy deser0 ctx0 100 [rcpt 10, badRcpt] chain0
    .invalidTokenAccount rfl⟩

/-- C5: permuting an all-valid recipient list yields the same final
balances: if the run on `l₁` succeeds then the run on any permutation
`l₂` succeeds as well, with pointwise equal final balances. -/
theorem sendToAll_perm_final_balances (deser : List Nat → Option TokenAccount)
    (ctx : SendTokens) (amount : Nat) (l₁ l₂ : List AccountInfo) (c c₁ : Chain)
    (hperm : l₁.Perm l₂)
    (hfrom : ∀ r ∈ l₁, r.key ≠ ctx.fromAccount.key)
    (hborrow : ∀ k, c.borrows k = 0)
    (h1 : (sendToAll deser ctx amount l₁ c).2 = .ok c₁) :
    ∃ c₂, (sendToAll deser ctx amount l₂ c).2 = .ok c₂ ∧ ∀ k, c₂.bal k = c₁.bal k := by
  obtain ⟨hdeser, hfunds, hover, hbf1, hbal1, -⟩ := loop_ok_sound deser ctx.mint
    ctx.fromAccount.key amount ctx.mint.decimals l₁ 0 c c₁ h1 hfrom
  have hfrom₂ : ∀ r ∈ l₂, r.key ≠ ctx.fromAccount.key :=
    fun r hr => hfrom r (hperm.mem_iff.mpr hr)
  have hdeser₂ : ∀ r ∈ l₂, deser r.data ≠ none :=
    fun r hr => hdeser r (hperm.mem_iff.mpr hr)
  have hlen : l₁.length = l₂.length := hperm.length_eq
  have hcnt : ∀ k, l₁.countP (fun x => x.key == k) = l₂.countP (fun x => x.key == k) :=
    fun k => hperm.countP_eq _
  have hfunds₂ : amount * l₂.length ≤ c.bal ctx.fromAccount.key := by
    rw [← hlen]; exact hfunds
  have hover₂ : ∀ r ∈ l₂,
      c.bal r.key + amount * l₂.countP (fun x => x.key == r.key) < 2 ^ 64 := by
    intro r hr
    rw [← hcnt r.key]
    exact hover r (hperm.mem_iff.mpr hr)
  obtain ⟨c₂, h2⟩ := loop_ok_complete deser ctx.mint ctx.fromAccount.key amount l₂ 0 c
    hfrom₂ hborrow hdeser₂ hfunds₂ hover₂
  obtain ⟨-, -, -, hbf2, hbal2, -⟩ := loop_ok_sound deser ctx.mint ctx.fromAccount.key
    amount ctx.mint.decimals l₂ 0 c c₂ h2 hfrom₂
  refine ⟨c₂, h2, ?_⟩
  intro k
  by_cases hk : k = ctx.fromAccount.key
  · subst hk
    rw [hbf1, hbf2, hlen]
  · rw [hbal1 k hk, hbal2 k hk, hcnt k]

/-- Witness for C5: swapping two valid recipients leaves every final
balance unchanged. -/
theorem sendToAll_perm_final_balances_witness :
    ∃ c₁, (sendToAll deser0 ctx0 100 [rcpt 10, rcpt 11] chain0).2 = .ok c₁ ∧
    ∃ c₂, (sendToAll deser0 ctx0 100 [rcpt 11, rcpt 10] chain0).2 = .ok c₂ ∧
      ∀ k, c₂.bal k = c₁.bal k :=
  ⟨_, rfl, sendToAll_perm_final_balances deser0 ctx0 100 [rcpt 10, rcpt 11]
    [rcpt 11, rcpt 10] chain0 _ (by decide) (by decide) (fun _ => rfl) rfl⟩

/-- C6: in a successful run every list position — including repeated
occurrences of the same recipient reference — gets its own transfer of
`amount` (a transfer-attempt event per position), and a key occurring
`n` times in the list gains exactly `amount * n`. -/
theorem sendToAll_duplicates_independent (deser : List Nat → Option TokenAccount)
    (ctx : SendTokens) (amount : Nat) (recipients : List AccountInfo) (c c' : Chain)
    (h : (sendToAll deser ctx amount recipients c).2 = .ok c')
    (hfrom : ∀ r ∈ recipients, r.key ≠ ctx.fromAccount.key) :
    (∀ j r, recipients[j]? = some r →
      Event.transferAttempt j ctx.fromAccount.key r.key amount ctx.mint.key
        ctx.mint.decimals ∈ (sendToAll deser ctx amount recipients c).1) ∧
    ∀ k, k ≠ ctx.fromAccount.key →
      c'.bal k = c.bal k + amount * recipients.countP (fun r => r.key == k) := by
  constructor
  · intro j r hj
    have hmem := loop_ok_attempts deser ctx.mint ctx.fromAccount.key amount
      ctx.mint.decimals recipients 0 c c' h j r hj
    simpa using hmem
  · exact (loop_ok_sound deser ctx.mint ctx.fromAccount.key amount ctx.mint.decimals
      recipients 0 c c' h hfrom).2.2.2.2.1

/-- Witness for C6: the same recipient listed twice receives two
independent transfers and gains `2 * amount`. -/
theorem sendToAll_duplicates_independent_witness :
    ∃ c', (sendToAll deser0 ctx0 100 [rcpt 10, rcpt 10] chain0).2 = .ok c' ∧
      ((∀ j r, [rcpt 10, rcpt 10][j]? = some r →
        Event.transferAttempt j ctx0.fromAccount.key r.key 100 ctx0.mint.key
          ctx0.mint.decimals ∈ (sendToAll deser0 ctx0 100 [rcpt 10, rcpt 10] chain0).1) ∧
      ∀ k, k ≠ ctx0.fromAccount.key →
        c'.bal k = chain0.bal k + 100 * [rcpt 10, rcpt 10].countP (fun r => r.key == k)) :=
  ⟨_, rfl, sendToAll_duplicates_independent deser0 ctx0 100 [rcpt 10, rcpt 10] chain0 _
    rfl (by decide)⟩

/-- C7: every transfer attempted within one invocation uses the
invocation's single `amount`, the context's single mint, and that mint's
declared decimals — no per-recipient variation is possible. -/
theorem transfer_args_uniform (deser : List Nat → Option TokenAccount)
    (ctx : SendTokens) (amount : Nat) (recipients : List AccountInfo) (c : Chain)
    {j f k a m dd : Nat}
    (hmem : Event.transferAttempt j f k a m dd ∈
      (sendToAll deser ctx amount recipients c).1) :
    f = ctx.fromAccount.key ∧ a = amount ∧ m = ctx.mint.key ∧ dd = ctx.mint.decimals :=
  loop_attempt_args deser ctx.mint ctx.fromAccount.key amount ctx.mint.decimals recipients
    0 c hmem

/-- Witness for C7: the single transfer attempt of a one-recipient run
carries the context's source key, amount, mint key and decimals. -/
theorem transfer_args_uniform_witness :
    Event.transferAttempt 0 1 10 100 3 6 ∈
      (sendToAll deser0 ctx0 100 [rcpt 10] chain0).1 ∧
    (1 = ctx0.fromAccount.key ∧ 100 = 100 ∧ 3 = ctx0.mint.key ∧ 6 = ctx0.mint.decimals) :=
  ⟨by decide, @transfer_args_uniform deser0 ctx0 100 [rcpt 10] chain0 0 1 10 100 3 6
    (by decide)⟩

/-- C8: whenever the decimals value handed to the transfer executor
differs from the mint's declared (canonical) decimals and a transfer is
actually attempted (the first recipient decodes), the invocation fails
with the primitive's decimals-mismatch reason and the host commits no
balance change at all.  In `send_to_all` itself the decimals argument is
always `ctx.accounts.mint.decimals` read from the mint account, so the
mismatch can only arise at this executor-pipeline level. -/
theorem decimals_mismatch_fails (deser : List Nat → Option TokenAccount) (mint : Mint)
    (fromKey amount d i : Nat) (r : AccountInfo) (rest : List AccountInfo) (c : Chain)
    (ta : TokenAccount)
    (hd : d ≠ mint.decimals)
    (hdec : deser r.data = some ta)
    (hborrow : ∀ k, c.borrows k = 0) :
    hostExecute (sendToAllLoop deser mint fromKey amount d i (r :: rest) c).2 c =
      (.error (.transfer .mintDecimalsMismatch), c) := by
  have hv := validateRecipient_ok_of_some c hdec
  have h1 : ¬(c.borrows fromKey ≠ 0 ∨ c.borrows r.key ≠ 0) := by simp [hborrow]
  have ht : transferChecked mint c fromKey r.key amount d = .error .mintDecimalsMismatch := by
    simp only [transferChecked]
    rw [if_neg h1, if_pos hd]
  simp [sendToAllLoop, hv, ht, hostExecute]

/-- Witness for C8: passing decimals 5 against a mint declaring 6 makes
the invocation fail with the mismatch reason and leaves the state
untouched. -/
theorem decimals_mismatch_fails_witness :
    (5 ≠ ctx0.mint.decimals) ∧
    hostExecute (sendToAllLoop deser0 ctx0.mint ctx0.fromAccount.key 50 5 0
        [rcpt 10] chain0).2 chain0 =
      (.error (.transfer .mintDecimalsMismatch), chain0) :=
  ⟨by decide, decimals_mismatch_fails deser0 ctx0.mint ctx0.fromAccount.key 50 5 0
    (rcpt 10) [] chain0 ⟨3, 10, 0⟩ (by decide) (by decide) (fun _ => rfl)⟩

/-- C9: validation is free of side effects: when a recipient reference
deserializes successfully the state after the validation step — the
transient data borrow having been taken and then released by the
explicit `drop` — is exactly the state before it, so the transfer step
for that same recipient operates on the unmodified pre-validation
state. -/
theorem validation_side_effect_free (deser : List Nat → Option TokenAccount)
    (r : AccountInfo) (c c' : Chain)
    (h : validateRecipient deser r c = .ok c') :
    c' = c ∧ ∀ (mint : Mint) (fromKey amount d i : Nat) (rest : List AccountInfo),
      (sendToAllLoop deser mint fromKey amount d i (r :: rest) c).2 =
        (match transferChecked mint c fromKey r.key amount d with
         | .error te => .error (.transfer te)
         | .ok c2 => (sendToAllLoop deser mint fromKey amount d (i + 1) rest c2).2) := by
  obtain ⟨hc, ta, hta⟩ := validateRecipient_ok_inv h
  subst c'
  refine ⟨rfl, ?_⟩
  intro mint fromKey amount d i rest
  simp only [sendToAllLoop, h]
  cases ht : transferChecked mint c fromKey r.key amount d <;> simp [ht]

/-- Witness for C9: validating a concrete recipient takes and releases
the borrow, returning exactly the initial state. -/
theorem validation_side_effect_free_witness :
    validateRecipient deser0 (rcpt 10) chain0 =
      .ok (releaseData (borrowData chain0 10) 10) ∧
    (releaseData (borrowData chain0 10) 10 = chain0 ∧
      ∀ (mint : Mint) (fromKey amount d i : Nat) (rest : List AccountInfo),
        (sendToAllLoop deser0 mint fromKey amount d i (rcpt 10 :: rest) chain0).2 =
          (match transferChecked mint chain0 fromKey (rcpt 10).key amount d with
           | .error te => .error (.transfer te)
           | .ok c2 => (sendToAllLoop deser0 mint fromKey amount d (i + 1) rest c2).2)) :=
  ⟨rfl, validation_side_effect_free deser0 (rcpt 10) chain0
    (releaseData (borrowData chain0 10) 10) rfl⟩

end Splitter
